import Mathlib

/-!
Verification development for the tiny-crypto repository: a shallow embedding
of the core consensus state machine (transactions, UTXO set, mempool, block
headers, chain index, block manager, node state) together with theorems that
settle the specification claims.

Modelling conventions:
* Machine integers (`u8`, `u32`, `u64`, `usize`) are modelled as `Nat`; the
  code never relies on wraparound in the claims treated here.
* Byte strings (`[u8; 32]`, `Vec<u8>`) are `List Nat`.
* `HashMap`/`BTreeMap` are association lists (`List (k × v)`); insertion
  replaces an existing binding in place, mirroring map semantics.
* Fallible Rust functions returning `anyhow::Result` become `Except String`.
* The external cryptographic primitives (double-SHA-256, secp256k1 ECDSA,
  address derivation, Merkle root), which the spec declares out of scope, are
  abstracted into a `Crypto` record of uninterpreted executable functions.
* Filesystem persistence in `BlockManager` is out of scope and omitted.
-/

/-- Lookup in an association list, first binding wins (map semantics). -/
def lookupA {k : Type} {v : Type} [DecidableEq k] : List (k × v) → k → Option v
  | [], _ => none
  | (k0, v0) :: rest, key => if k0 = key then some v0 else lookupA rest key

/-- Insert into an association list: replace the binding in place if the key
is present, otherwise append at the end. -/
def insertA {k : Type} {v : Type} [DecidableEq k] : List (k × v) → k → v → List (k × v)
  | [], key, val => [(key, val)]
  | (k0, v0) :: rest, key, val =>
    if k0 = key then (key, val) :: rest else (k0, v0) :: insertA rest key val

/-- Remove the binding for a key from an association list. -/
def removeA {k : Type} {v : Type} [DecidableEq k] : List (k × v) → k → List (k × v)
  | [], _ => []
  | (k0, v0) :: rest, key => if k0 = key then rest else (k0, v0) :: removeA rest key

theorem lookupA_insertA_self {k v : Type} [DecidableEq k] (l : List (k × v)) (key : k) (val : v) :
    lookupA (insertA l key val) key = some val := by
  induction l with
  | nil => simp [insertA, lookupA]
  | cons hd tl ih =>
    by_cases h : hd.1 = key
    · simp [insertA, lookupA, h]
    · simp [insertA, lookupA, h, ih]

theorem lookupA_insertA_ne {k v : Type} [DecidableEq k] (l : List (k × v)) (key key2 : k)
    (val : v) (hne : key ≠ key2) : lookupA (insertA l key val) key2 = lookupA l key2 := by
  induction l with
  | nil => simp [insertA, lookupA, hne]
  | cons hd tl ih =>
    by_cases h : hd.1 = key
    · simp only [insertA, h, if_pos rfl, lookupA, hne, if_neg]
      simp [← h, lookupA]
    · simp [insertA, lookupA, h, ih]

theorem insertA_idem {k v : Type} [DecidableEq k] (l : List (k × v)) (key : k) (val : v) :
    insertA (insertA l key val) key val = insertA l key val := by
  induction l with
  | nil => simp [insertA]
  | cons hd tl ih =>
    by_cases h : hd.1 = key
    · simp [insertA, h]
    · simp [insertA, h, ih]

/-- Little-endian byte encoding of a natural number into `w` bytes
(truncating above `256 ^ w`, as fixed-width machine encodings do). -/
def leBytes : Nat → Nat → List Nat
  | 0, _ => []
  | w + 1, n => n % 256 :: leBytes w (n / 256)

theorem leBytes_length (w n : Nat) : (leBytes w n).length = w := by
  induction w generalizing n with
  | zero => rfl
  | succ w ih => simp [leBytes, ih]

/-- The bincode 2 variable-width integer encoding used by
`bincode::config::standard()`: values below 251 take a single byte; wider
values are introduced by the markers 251 (u16), 252 (u32), 253 (u64),
254 (u128), followed by a little-endian fixed-width payload. -/
def varint (n : Nat) : List Nat :=
  if n < 251 then [n]
  else if n < 2 ^ 16 then 251 :: leBytes 2 n
  else if n < 2 ^ 32 then 252 :: leBytes 4 n
  else if n < 2 ^ 64 then 253 :: leBytes 8 n
  else 254 :: leBytes 16 n

/-- The value of a byte string read as a big-endian natural number
(`BigUint::from_bytes_be`). -/
def beNat : List Nat → Nat
  | [] => 0
  | b :: rest => b * 256 ^ rest.length + beNat rest

/-- Lexicographic three-way comparison of byte strings: the derived `Ord` on
Rust arrays `[u8; 32]` compares element by element. -/
def cmpBytes : List Nat → List Nat → Ordering
  | [], [] => .eq
  | [], _ :: _ => .lt
  | _ :: _, [] => .gt
  | x :: xs, y :: ys =>
    if x < y then .lt else if y < x then .gt else cmpBytes xs ys

/-- Rotate a list right by `k` positions (`slice::rotate_right`): the last `k`
elements move to the front. Callers guarantee `k ≤ length`. -/
def rotateRightList (l : List Nat) (k : Nat) : List Nat :=
  l.drop (l.length - k) ++ l.take (l.length - k)

/-- The cryptographic primitives the core consumes, left uninterpreted: the
spec places double-SHA-256, secp256k1 ECDSA, address derivation and Merkle
root construction outside the core. Keys, signatures and messages are opaque
(`Nat` / `List Nat`). -/
structure Crypto where
  sha : List Nat → List Nat
  ecdsaSign : Nat → List Nat → Nat
  ecdsaVerify : Nat → List Nat → Nat → Bool
  addressOfPublicKey : Nat → List Nat
  merkleRoot : List (List Nat) → Option (List Nat)

deriving instance DecidableEq for Except

/-- A secp256k1 keypair (`crypto.rs::KeyPair`), keys opaque. -/
structure KeyPair where
  secret_key : Nat
  public_key : Nat
deriving DecidableEq

namespace TxV0

/-!
Embedding of `src/src/transaction.rs` as present in the repository: the
self-contained transaction module with `TransactionInputType`,
`KeyedSignature` and `TransactionState`. (The files `utxo_set.rs`, `node.rs`
etc. use a later `TransactionBody`-based transaction type that is embedded at
top level further below.)
-/

/-- `transaction.rs::TransactionOutput`. The address is its UTF-8 byte
string (`crypto.rs::Address` wraps a `String`). -/
structure TransactionOutput where
  value : Nat
  address : List Nat
deriving DecidableEq

/-- `transaction.rs::TransactionOutputReference` (`TxId` unfolds to the
32-byte hash it wraps). -/
structure TransactionOutputReference where
  id : List Nat
  index : Nat
deriving DecidableEq

/-- `transaction.rs::TransactionInputType`. -/
inductive TransactionInputType where
  | Coinbase (block_height : Nat)
  | Reference (r : TransactionOutputReference)
deriving DecidableEq

/-- `transaction.rs::KeyedSignature`. -/
structure KeyedSignature where
  public_key : Nat
  signature : Nat
deriving DecidableEq

/-- `transaction.rs::TransactionInput`. -/
structure TransactionInput where
  content : TransactionInputType
  keyed_signature : Option KeyedSignature
deriving DecidableEq

/-- `transaction.rs::Transaction`. -/
structure Transaction where
  input : TransactionInput
  outputs : List TransactionOutput
deriving DecidableEq

/-- Bincode-standard encoding of a `TransactionOutput` (derived `Encode`):
`value` as a u64 varint, then the address string length-prefixed. -/
def encOutput (o : TransactionOutput) : List Nat :=
  varint o.value ++ varint o.address.length ++ o.address

/-- Bincode-standard encoding of a `TransactionOutputReference`: the 32 raw
bytes of the id (arrays carry no length prefix), then the `usize` index as a
u64 varint. -/
def encReference (r : TransactionOutputReference) : List Nat :=
  r.id ++ varint r.index

/-- Bincode-standard encoding of `TransactionInputType`: the enum
discriminant is a u32 varint, then the variant payload. -/
def encInputType : TransactionInputType → List Nat
  | .Coinbase h => varint 0 ++ varint h
  | .Reference r => varint 1 ++ encReference r

/-- `Transaction::as_bytes`: `bincode::encode_to_vec` with
`bincode::config::standard()` (little-endian, varint). The manual `Encode`
impl for `TransactionInput` encodes only `content`, excluding
`keyed_signature`; the derived impl for `Transaction` then encodes the input
followed by the length-prefixed outputs vector. -/
def Transaction.asBytes (tx : Transaction) : List Nat :=
  encInputType tx.input.content ++ varint tx.outputs.length ++
    (tx.outputs.map encOutput).flatten

/-- `Transaction::id`: double-SHA-256 of the canonical bytes. -/
def Transaction.id (C : Crypto) (tx : Transaction) : List Nat :=
  C.sha tx.asBytes

/-- `Transaction::sign`: sign the canonical bytes and attach the keyed
signature to the input; returns the updated transaction and the signature. -/
def Transaction.sign (C : Crypto) (kp : KeyPair) (tx : Transaction) :
    Transaction × Nat :=
  let signature := C.ecdsaSign kp.secret_key tx.asBytes
  ({ tx with input := { tx.input with
      keyed_signature := some ⟨kp.public_key, signature⟩ } }, signature)

/-- `Transaction::verify`: error if the input carries no keyed signature,
otherwise return the boolean outcome of ECDSA verification. -/
def Transaction.verify (C : Crypto) (tx : Transaction) : Except String Bool :=
  match tx.input.keyed_signature with
  | none => .error "Transaction input has no keyed signature"
  | some ks => .ok (C.ecdsaVerify ks.signature tx.asBytes ks.public_key)

/-- `Transaction::output_reference`. -/
def Transaction.outputReference (C : Crypto) (tx : Transaction) (index : Nat) :
    Except String TransactionOutputReference :=
  if index ≥ tx.outputs.length then
    .error "Transaction output index out of bounds"
  else
    .ok ⟨tx.id C, index⟩

/-- `transaction.rs::UTXOSet`: a `HashSet` of output references. -/
structure UTXOSet where
  outputs : List TransactionOutputReference
deriving DecidableEq

/-- `transaction.rs::TransactionState`. -/
structure TransactionState where
  transactions : List (List Nat × Transaction)
  uxto_set : UTXOSet
deriving DecidableEq

/-- `TransactionState::validate_transaction`. Note the first statement of the
Rust source is `transaction.verify()?;`, which propagates an error but
discards the verification boolean. -/
def TransactionState.validateTransaction (C : Crypto) (st : TransactionState)
    (tx : Transaction) : Except String Unit := do
  let _ ← tx.verify C
  match tx.input.content with
  | .Coinbase _ => .ok ()
  | .Reference reference =>
    match lookupA st.transactions reference.id with
    | none => .error "Transaction output reference not found"
    | some funding =>
      if reference ∈ st.uxto_set.outputs then
        match funding.outputs.get? reference.index with
        | none => .error "Transaction output index not found"
        | some output =>
          match funding.input.keyed_signature with
          | none => .error "Transaction input is not signed"
          | some ks =>
            if output.address ≠ C.addressOfPublicKey ks.public_key then
              .error "Transaction output address does not match public key"
            else if (tx.outputs.map (fun o => o.value)).sum ≠ output.value then
              .error "Transaction output value does not match"
            else
              .ok ()
      else
        .error "Transaction output already spent"

end TxV0

/-!
The `TransactionBody`-based transaction model used by `utxo_set.rs`,
`mem_pool.rs`, `chain.rs`, `block.rs` and `node.rs`. The data type itself and
its signing operations are imported by those files from `crate::transaction`
but are not present under `src/`; they are modelled from the spec (§3, §4.1).
The `UTXOSet` and `MemPool` operations below are translated from the source
files `utxo_set.rs` and `mem_pool.rs`.
-/

/-- Modelled from the spec: `TransactionOutput` — `{ value: u64, address }`;
the address is its UTF-8 byte string. -/
structure TransactionOutput where
  value : Nat
  address : List Nat
deriving DecidableEq

/-- Modelled from the spec: `TransactionOutputReference` —
`{ txid: Hash, index }`. -/
structure TransactionOutputReference where
  id : List Nat
  index : Nat
deriving DecidableEq

/-- Modelled from the spec: `TransactionInput`, a tagged variant of a
coinbase input or a reference to an unspent output. -/
inductive TransactionInput where
  | Coinbase (block_height : Nat)
  | Reference (r : TransactionOutputReference)
deriving DecidableEq

/-- Modelled from the spec: `TransactionBody` — input plus outputs. -/
structure TransactionBody where
  input : TransactionInput
  outputs : List TransactionOutput
deriving DecidableEq

/-- Modelled from the spec: `SigningInfo` — signature and public key. -/
structure SigningInfo where
  public_key : Nat
  signature : Nat
deriving DecidableEq

/-- Modelled from the spec: `Transaction` — a body plus its signing info. -/
structure Transaction where
  body : TransactionBody
  signing_info : SigningInfo
deriving DecidableEq

/-- Modelled from the spec: canonical serialization of a `TransactionBody`
(§4.1/§6): little-endian fixed-width integers, u32 tag, u64 length prefixes;
the signing info is excluded. Only its determinism matters to the claims that
use it (it feeds the abstract hash). -/
def TransactionBody.canonicalBytes (b : TransactionBody) : List Nat :=
  (match b.input with
   | .Coinbase h => leBytes 4 0 ++ leBytes 4 h
   | .Reference r => leBytes 4 1 ++ r.id ++ leBytes 8 r.index) ++
  leBytes 8 b.outputs.length ++
  (b.outputs.map fun o =>
    leBytes 8 o.value ++ leBytes 8 o.address.length ++ o.address).flatten

/-- Modelled from the spec: `txid` — double-SHA-256 of the canonical body
bytes. -/
def Transaction.id (C : Crypto) (tx : Transaction) : List Nat :=
  C.sha tx.body.canonicalBytes

/-- Modelled from the spec: `verify_signature` — ECDSA verification of the
attached signature over the canonical body bytes, returned as a boolean
inside `Result` (callers in `utxo_set.rs` apply `?` to it). -/
def Transaction.verifySignature (C : Crypto) (tx : Transaction) :
    Except String Bool :=
  .ok (C.ecdsaVerify tx.signing_info.signature tx.body.canonicalBytes
        tx.signing_info.public_key)

/-- Modelled from the spec: `SigningInfo::address` — the address derived from
the signer's public key. -/
def SigningInfo.address (C : Crypto) (si : SigningInfo) : List Nat :=
  C.addressOfPublicKey si.public_key

/-- Modelled from the spec: `output_reference(tx, i)` — fails if the index is
out of bounds (§4.1). -/
def Transaction.outputReference (C : Crypto) (tx : Transaction) (index : Nat) :
    Except String TransactionOutputReference :=
  if index ≥ tx.body.outputs.length then
    .error "Transaction output index out of bounds"
  else
    .ok ⟨tx.id C, index⟩

/-- `utxo_set.rs::UTXOSet`: a map from output reference to the transaction
that created the output. -/
structure UTXOSet where
  outputs : List (TransactionOutputReference × Transaction)
deriving DecidableEq

/-- `UTXOSet::update`: remove the spent reference (an error if it is absent),
then insert a reference for every output of the transaction. A failing update
leaves the set unchanged. -/
def UTXOSet.update (C : Crypto) (u : UTXOSet) (tx : Transaction) :
    Except String UTXOSet := do
  let u1 ←
    match tx.body.input with
    | .Reference reference =>
      match lookupA u.outputs reference with
      | none => Except.error "Transaction output reference not found"
      | some _ => Except.ok (UTXOSet.mk (removeA u.outputs reference))
    | .Coinbase _ => Except.ok u
  let refs ← (List.range tx.body.outputs.length).mapM (tx.outputReference C)
  Except.ok (UTXOSet.mk (refs.foldl (fun os r => insertA os r tx) u1.outputs))

/-- `UTXOSet::validate_transaction`: first `transaction.verify_signature()?;`
(which propagates an error but discards the boolean), then for a reference
input check presence, ownership and exact value balance. -/
def UTXOSet.validateTransaction (C : Crypto) (u : UTXOSet) (tx : Transaction) :
    Except String Bool := do
  let _ ← tx.verifySignature C
  match tx.body.input with
  | .Coinbase _ => .ok true
  | .Reference reference =>
    match lookupA u.outputs reference with
    | none => .error "Transaction output already spent"
    | some spentTx =>
      match spentTx.body.outputs.get? reference.index with
      | none => .error "Transaction output index not found"
      | some output =>
        if output.address ≠ tx.signing_info.address C then
          .error "Transaction not signed by owner of output address"
        else if (tx.body.outputs.map fun o => o.value).sum ≠ output.value then
          .error "Transaction output value does not match"
        else
          .ok true

/-- `mem_pool.rs::MemPool`. -/
structure MemPool where
  size : Nat
  pending_transactions : List Transaction
deriving DecidableEq

/-- `MemPool::is_full`. -/
def MemPool.isFull (mp : MemPool) : Bool :=
  mp.pending_transactions.length ≥ mp.size

/-- The projection step of `MemPool::add`: clone the UTXO set and apply every
pending transaction in order. -/
def MemPool.projectPending (C : Crypto) (utxo : UTXOSet) :
    List Transaction → Except String UTXOSet
  | [] => .ok utxo
  | tx :: rest =>
    match utxo.update C tx with
    | .error e => .error e
    | .ok u2 => MemPool.projectPending C u2 rest

/-- `MemPool::add`: reject immediately when full; otherwise validate the
transaction against the projected UTXO set and append it on success. The
borrowed UTXO set is never mutated (the pool only projects against a clone),
so the result carries only the new pool. -/
def MemPool.add (C : Crypto) (mp : MemPool) (utxo : UTXOSet) (tx : Transaction) :
    Except String Unit × MemPool :=
  if mp.isFull then (.error "MemPool is full", mp)
  else
    match MemPool.projectPending C utxo mp.pending_transactions with
    | .error e => (.error e, mp)
    | .ok projected =>
      match projected.validateTransaction C tx with
      | .error e => (.error e, mp)
      | .ok _ =>
        (.ok (), { mp with pending_transactions := mp.pending_transactions ++ [tx] })

/-- `MemPool::drain`. -/
def MemPool.drain (mp : MemPool) : List Transaction × MemPool :=
  (mp.pending_transactions, { mp with pending_transactions := [] })

/-!
Embedding of `src/src/block.rs`: block header serialization, difficulty
target, mining, block structure.
-/

/-- `block.rs::BlockHeader`. The two hash fields are 32-byte strings. -/
structure BlockHeader where
  previous_block_hash : List Nat
  merkle_root : List Nat
  timestamp : Nat
  difficulty : Nat
  nonce : Nat
deriving DecidableEq

/-- `BlockHeader::as_bytes`: bincode with little-endian fixed-width integer
encoding, 77 bytes in total — the two 32-byte hashes as-is, the timestamp as
u32 LE at offset 64, the difficulty byte at offset 68, the nonce as u64 LE at
offset 69. -/
def BlockHeader.asBytes (h : BlockHeader) : List Nat :=
  h.previous_block_hash ++ h.merkle_root ++
    leBytes 4 h.timestamp ++ [h.difficulty] ++ leBytes 8 h.nonce

/-- `BlockHeader::hash`: double-SHA-256 of the serialized header. -/
def BlockHeader.hash (C : Crypto) (h : BlockHeader) : List Nat :=
  C.sha h.asBytes

/-- `BlockHeader::difficulty_target`: an error for difficulty ≥ 32; otherwise
the 32-byte array with high byte `0xFF` rotated right by `difficulty`
positions. -/
def BlockHeader.difficultyTarget (difficulty : Nat) : Option (List Nat) :=
  if difficulty ≥ 32 then none
  else some (rotateRightList (255 :: List.replicate 31 0) difficulty)

/-- `BlockHeader::target_met`: the hash compares `Less` or `Equal` to the
target under the derived lexicographic array ordering. -/
def BlockHeader.targetMet (hash target : List Nat) : Bool :=
  match cmpBytes hash target with
  | .gt => false
  | _ => true

/-- The loop body of `BlockHeader::compute_nonce`, given fuel: substitute the
candidate nonce into bytes 69..77 of the serialized header, double-SHA-256,
and stop at the first candidate meeting the target. -/
def BlockHeader.nonceLoop (C : Crypto) (bytes target : List Nat) :
    Nat → Nat → Option Nat
  | 0, _ => none
  | fuel + 1, n =>
    if BlockHeader.targetMet (C.sha (bytes.take 69 ++ leBytes 8 n)) target then
      some n
    else
      BlockHeader.nonceLoop C bytes target fuel (n + 1)

/-- `BlockHeader::compute_nonce`: linear search from nonce 0. The Rust loop
is unbounded; the embedding takes explicit fuel and the theorems show the
search is fuel-independent once the least satisfying nonce is reachable. -/
def BlockHeader.computeNonce (C : Crypto) (h : BlockHeader) (fuel : Nat) :
    Option Nat :=
  match BlockHeader.difficultyTarget h.difficulty with
  | none => none
  | some target => BlockHeader.nonceLoop C h.asBytes target fuel 0

/-- `Block::mine` restricted to the header: store the computed nonce in the
header's nonce field. -/
def BlockHeader.mine (C : Crypto) (h : BlockHeader) (fuel : Nat) :
    Option BlockHeader :=
  (h.computeNonce C fuel).map fun n => { h with nonce := n }

/-- `BlockHeader::validate_hash`: the header's own hash meets the target
derived from its difficulty. -/
def BlockHeader.validateHash (C : Crypto) (h : BlockHeader) : Option Bool :=
  (BlockHeader.difficultyTarget h.difficulty).map fun target =>
    BlockHeader.targetMet (h.hash C) target

/-- `block.rs::Block`. -/
structure Block where
  height : Nat
  header : BlockHeader
  transactions : List Transaction
deriving DecidableEq

/-- `block.rs::block_reward`: the genesis reward halved every
`BLOCKS_PER_REWARD_HALVING` blocks (the constants file is not under `src/`,
so the two constants are parameters). -/
def blockReward (genesisReward halvingInterval height : Nat) : Nat :=
  genesisReward / 2 ^ (height / halvingInterval)

/-- Modelled from the spec: `Block::validate` (§4.5) — the isolated block
validation called by `NodeState::add_block`; the method is referenced from
`node.rs` but its definition is not under `src/`. A block is valid in
isolation iff the header hash meets the target, the first transaction is a
coinbase of the block's height carrying exactly the block reward, every
other transaction passes signature verification, and the Merkle root over
the txids matches the header. -/
def Block.validate (C : Crypto) (genesisReward halvingInterval : Nat)
    (b : Block) : Except String Unit :=
  match BlockHeader.validateHash C b.header with
  | none => .error "Difficultly target is too high"
  | some false => .error "Invalid proof of work"
  | some true =>
    match b.transactions.head? with
    | none => .error "Block has no coinbase transaction"
    | some coinbase =>
      match coinbase.body.input with
      | .Reference _ => .error "First transaction is not a coinbase"
      | .Coinbase block_height =>
        if block_height ≠ b.height then .error "Coinbase height mismatch"
        else
          match coinbase.body.outputs.head? with
          | none => .error "Coinbase has no outputs"
          | some o =>
            if o.value ≠ blockReward genesisReward halvingInterval b.height then
              .error "Coinbase reward mismatch"
            else if !((b.transactions.drop 1).all fun tx =>
                C.ecdsaVerify tx.signing_info.signature tx.body.canonicalBytes
                  tx.signing_info.public_key) then
              .error "Invalid transaction signature"
            else if C.merkleRoot (b.transactions.map (Transaction.id C)) ≠
                some b.header.merkle_root then
              .error "Merkle root mismatch"
            else
              .ok ()

/-!
Embedding of `src/src/chain.rs`: chain-index nodes with cumulative work, and
the best-chain map.
-/

/-- `chain.rs::BlockchainNode`: height, header, cumulative work and an
optional shared handle to the predecessor. The `Option<Arc<BlockchainNode>>`
field is modelled by the two constructors (`root` for `previous == None`). -/
inductive BlockchainNode where
  | root (height : Nat) (header : BlockHeader) (work : Nat)
  | cons (height : Nat) (header : BlockHeader) (work : Nat)
      (previous : BlockchainNode)
deriving DecidableEq

namespace BlockchainNode

def height : BlockchainNode → Nat
  | .root h _ _ => h
  | .cons h _ _ _ => h

def header : BlockchainNode → BlockHeader
  | .root _ hd _ => hd
  | .cons _ hd _ _ => hd

def work : BlockchainNode → Nat
  | .root _ _ w => w
  | .cons _ _ w _ => w

def previous : BlockchainNode → Option BlockchainNode
  | .root _ _ _ => none
  | .cons _ _ _ p => some p

/-- `BlockchainNode::new`: a fresh node for a block, with zero work and no
predecessor. -/
def new (b : Block) : BlockchainNode :=
  .root b.height b.header 0

/-- Rebuild a node with the given previous handle (the assignment
`self.previous = previous`). -/
def withPrevious (n : BlockchainNode) (prev : Option BlockchainNode) :
    BlockchainNode :=
  match prev with
  | none => .root n.height n.header n.work
  | some p => .cons n.height n.header n.work p

/-- Rebuild a node with the given work value. -/
def withWork (n : BlockchainNode) (w : Nat) : BlockchainNode :=
  match n with
  | .root h hd _ => .root h hd w
  | .cons h hd _ p => .cons h hd w p

/-- `BlockchainNode::calculate_work`: the big-endian value of the difficulty
target gives per-block work `(2^256 − 1 − target) / (target + 1) + 1`, added
to the predecessor's cumulative work (zero if there is none); exact `Nat`
arithmetic mirrors `BigUint`. -/
def calculateWork (n : BlockchainNode) : Option Nat :=
  (BlockHeader.difficultyTarget n.header.difficulty).map fun targetBytes =>
    let target := beNat targetBytes
    let maxTarget := 2 ^ 256 - 1
    let blockWork := (maxTarget - target) / (target + 1) + 1
    let previousWork := (n.previous.map work).getD 0
    previousWork + blockWork

/-- `BlockchainNode::set_previous`: install the predecessor handle and
recompute the cumulative work. -/
def setPrevious (n : BlockchainNode) (prev : Option BlockchainNode) :
    Option BlockchainNode :=
  let n1 := n.withPrevious prev
  (calculateWork n1).map fun w => n1.withWork w

end BlockchainNode

/-- Insert into a height-sorted association list (`BTreeMap<u32, _>`),
replacing an existing binding for the same height. -/
def insertSorted (l : List (Nat × BlockchainNode)) (key : Nat)
    (node : BlockchainNode) : List (Nat × BlockchainNode) :=
  match l with
  | [] => [(key, node)]
  | (k0, v0) :: rest =>
    if key < k0 then (key, node) :: (k0, v0) :: rest
    else if key = k0 then (key, node) :: rest
    else (k0, v0) :: insertSorted rest key node

/-- `chain.rs::Blockchain`: an ordered map from height to the best-chain node
at that height, kept as a height-sorted association list. -/
structure Blockchain where
  nodes : List (Nat × BlockchainNode)
deriving DecidableEq

namespace Blockchain

/-- `Blockchain::tail`: the node at the greatest height. -/
def tail (c : Blockchain) : Option BlockchainNode :=
  c.nodes.getLast?.map fun p => p.2

/-- `Blockchain::height`: the greatest height, or zero. -/
def height (c : Blockchain) : Nat :=
  (c.nodes.getLast?.map fun p => p.1).getD 0

/-- `Blockchain::chain_work`: the tail's cumulative work. -/
def chainWork (c : Blockchain) : Option Nat :=
  c.tail.map BlockchainNode.work

/-- `Blockchain::contains_node`: the map holds that exact node at its
height. -/
def containsNode (c : Blockchain) (n : BlockchainNode) : Bool :=
  match lookupA c.nodes n.height with
  | none => false
  | some m => m = n

/-- Modelled from the spec: the ancestor-insertion walk of `set_tip` (§4.7) —
walking backward via `previous`, insert each node keyed by its height,
stopping as soon as a node is already present in the map. -/
def insertPath (m : List (Nat × BlockchainNode)) :
    BlockchainNode → List (Nat × BlockchainNode)
  | .root h hd w =>
    if Blockchain.containsNode ⟨m⟩ (.root h hd w) then m
    else insertSorted m h (.root h hd w)
  | .cons h hd w p =>
    if Blockchain.containsNode ⟨m⟩ (.cons h hd w p) then m
    else insertPath (insertSorted m h (.cons h hd w p)) p

/-- Modelled from the spec: `Blockchain::set_tail` (`set_tip` in §4.7, called
from `node.rs` but not defined under `src/`) — drop all entries at or above
the new tip's height, then graft the tip's ancestor path down to the common
ancestor. -/
def setTail (c : Blockchain) (n : BlockchainNode) : Blockchain :=
  ⟨insertPath (c.nodes.filter fun p => p.1 < n.height) n⟩

end Blockchain

/-!
Embedding of `src/src/block_manager.rs` (persistence omitted as out of
scope): the content-addressed block store with orphan holding area.
-/

/-- `block_manager.rs::AddBlockResult`. -/
inductive AddBlockResult where
  | Added (node : BlockchainNode)
  | Orphaned
deriving DecidableEq

/-- `block_manager.rs::BlockManager` (the `data_dir` field and filesystem
persistence are omitted). -/
structure BlockManager where
  blocks : List (List Nat × Block)
  nodes : List (List Nat × BlockchainNode)
  orphan_blocks : List (List Nat × Block)
deriving DecidableEq

namespace BlockManager

/-- `BlockManager::contains_block`. -/
def containsBlock (m : BlockManager) (hash : List Nat) : Bool :=
  (lookupA m.blocks hash).isSome

/-- `BlockManager::get_block`. -/
def getBlock (m : BlockManager) (hash : List Nat) : Option Block :=
  lookupA m.blocks hash

/-- `BlockManager::add_block` (via `add_block_internal`; the `persist` step
is omitted): orphan the block when its predecessor is unknown and its height
exceeds 1; otherwise build a chain node on top of the predecessor and insert
into both indices. -/
def addBlock (C : Crypto) (m : BlockManager) (b : Block) :
    Except String (AddBlockResult × BlockManager) :=
  let hash := b.header.hash C
  let previousNode := lookupA m.nodes b.header.previous_block_hash
  if previousNode.isNone ∧ b.height > 1 then
    .ok (.Orphaned, { m with orphan_blocks := insertA m.orphan_blocks hash b })
  else
    match (BlockchainNode.new b).setPrevious previousNode with
    | none => .error "Difficultly target is too high"
    | some node =>
      .ok (.Added node,
        { m with
          nodes := insertA m.nodes hash node
          blocks := insertA m.blocks hash b })

end BlockManager

/-!
Embedding of `src/src/node.rs`: the node state machine.
-/

/-- `node.rs::NodeState`. -/
structure NodeState where
  block_manager : BlockManager
  chain : Blockchain
  utxo_set : UTXOSet
  mem_pool : MemPool
deriving DecidableEq

namespace NodeState

/-- The transaction-application loop inside `build_utxo_set`: apply each
transaction of a block in order, returning the partially updated set on
failure (the Rust code mutates `self.utxo_set` in place). -/
def applyTxs (C : Crypto) (u : UTXOSet) :
    List Transaction → Except String Unit × UTXOSet
  | [] => (.ok (), u)
  | tx :: rest =>
    match u.update C tx with
    | .error e => (.error e, u)
    | .ok u2 => NodeState.applyTxs C u2 rest

/-- The per-node loop of `build_utxo_set`: walk the chain map in height
order, skip heights whose block is not in the store, and apply every
transaction of each found block. -/
def buildLoop (C : Crypto) (mgr : BlockManager) (u : UTXOSet) :
    List (Nat × BlockchainNode) → Except String Unit × UTXOSet
  | [] => (.ok (), u)
  | (_, n) :: rest =>
    match mgr.getBlock (n.header.hash C) with
    | none => NodeState.buildLoop C mgr u rest
    | some b =>
      match NodeState.applyTxs C u b.transactions with
      | (.error e, u2) => (.error e, u2)
      | (.ok _, u2) => NodeState.buildLoop C mgr u2 rest

/-- `NodeState::build_utxo_set`: reset the UTXO set and replay every block on
the current best chain; on failure the partially rebuilt set remains. -/
def buildUtxoSet (C : Crypto) (s : NodeState) : Except String Unit × NodeState :=
  let ru := NodeState.buildLoop C s.block_manager ⟨[]⟩ s.chain.nodes
  (ru.1, { s with utxo_set := ru.2 })

/-- `NodeState::add_block`: skip known blocks, validate in isolation, insert
into the block manager, and when the new node's cumulative work reaches the
current chain's, retarget the chain to it and rebuild the UTXO set. -/
def addBlock (C : Crypto) (genesisReward halvingInterval : Nat)
    (s : NodeState) (b : Block) : Except String Unit × NodeState :=
  let hash := b.header.hash C
  if s.block_manager.containsBlock hash then (.ok (), s)
  else
    match Block.validate C genesisReward halvingInterval b with
    | .error e => (.error e, s)
    | .ok _ =>
      match s.block_manager.addBlock C b with
      | .error e => (.error e, s)
      | .ok (.Orphaned, m2) => (.ok (), { s with block_manager := m2 })
      | .ok (.Added node, m2) =>
        let s1 : NodeState := { s with block_manager := m2 }
        if node.work ≥ (s1.chain.chainWork.getD 0) then
          NodeState.buildUtxoSet C { s1 with chain := s1.chain.setTail node }
        else
          (.ok (), s1)

/-- `NodeState::add_transaction`. -/
def addTransaction (C : Crypto) (s : NodeState) (tx : Transaction) :
    Except String Unit × NodeState :=
  let (r, mp) := s.mem_pool.add C s.utxo_set tx
  (r, { s with mem_pool := mp })

end NodeState

/-!
Shared lemmas about byte strings, the difficulty target and big-endian
values.
-/

theorem beNat_append (l m : List Nat) :
    beNat (l ++ m) = beNat l * 256 ^ m.length + beNat m := by
  induction l with
  | nil => simp [beNat]
  | cons b rest ih =>
    show beNat (b :: (rest ++ m)) = _
    simp only [beNat, List.append_eq, List.length_append, ih, pow_add]
    ring

theorem beNat_replicate_zero (k : Nat) : beNat (List.replicate k 0) = 0 := by
  induction k with
  | zero => rfl
  | succ k ih => simp [List.replicate, beNat, ih]

theorem beNat_lt_pow (l : List Nat) (hl : ∀ x ∈ l, x < 256) :
    beNat l < 256 ^ l.length := by
  induction l with
  | nil => simp [beNat]
  | cons b rest ih =>
    have hb : b < 256 := hl b (by simp)
    have hr : beNat rest < 256 ^ rest.length :=
      ih fun x hx => hl x (by simp [hx])
    simp only [beNat, List.length_cons, pow_succ]
    calc b * 256 ^ rest.length + beNat rest
        < b * 256 ^ rest.length + 256 ^ rest.length := by omega
      _ = (b + 1) * 256 ^ rest.length := by ring
      _ ≤ 256 * 256 ^ rest.length := Nat.mul_le_mul_right _ (by omega)
      _ = 256 ^ rest.length * 256 := by ring

theorem difficultyTarget_lt (d : Nat) (hd : d < 32) :
    BlockHeader.difficultyTarget d =
      some (List.replicate d 0 ++ 255 :: List.replicate (31 - d) 0) := by
  have h32 : ¬ 32 ≤ d := by omega
  simp only [BlockHeader.difficultyTarget, ge_iff_le, h32, if_false,
    rotateRightList]
  have hlen : (255 :: List.replicate 31 0 : List Nat).length = 32 := by simp
  rw [hlen]
  have h1 : 32 - d = (31 - d) + 1 := by omega
  rw [h1, List.drop_succ_cons, List.take_succ_cons, List.drop_replicate,
    List.take_replicate]
  have h2 : 31 - (31 - d) = d := by omega
  have h3 : min (31 - d) 31 = 31 - d := by omega
  rw [h2, h3]

theorem difficultyTarget_ge (d : Nat) (hd : 32 ≤ d) :
    BlockHeader.difficultyTarget d = none := by
  simp [BlockHeader.difficultyTarget, hd]

theorem beNat_difficultyTarget (d : Nat) :
    beNat (List.replicate d 0 ++ 255 :: List.replicate (31 - d) 0) =
      255 * 256 ^ (31 - d) := by
  rw [beNat_append, beNat_replicate_zero]
  simp [beNat, beNat_replicate_zero]

theorem targetMet_iff (hash target : List Nat) :
    BlockHeader.targetMet hash target = true ↔ cmpBytes hash target ≠ .gt := by
  unfold BlockHeader.targetMet
  cases cmpBytes hash target <;> simp

theorem cmpBytes_iff_beNat : ∀ (a b : List Nat), a.length = b.length →
    (∀ x ∈ a, x < 256) → (∀ x ∈ b, x < 256) →
    (cmpBytes a b ≠ .gt ↔ beNat a ≤ beNat b) := by
  intro a
  induction a with
  | nil =>
    intro b hlen _ _
    have hb : b = [] := List.eq_nil_of_length_eq_zero hlen.symm
    subst hb
    simp [cmpBytes, beNat]
  | cons x xs ih =>
    intro b hlen ha hb
    cases b with
    | nil => simp at hlen
    | cons y ys =>
      have hn : xs.length = ys.length := by simpa using hlen
      have hx : x < 256 := ha x (by simp)
      have hy : y < 256 := hb y (by simp)
      have hxs : ∀ z ∈ xs, z < 256 := fun z hz => ha z (by simp [hz])
      have hys : ∀ z ∈ ys, z < 256 := fun z hz => hb z (by simp [hz])
      have hxsv : beNat xs < 256 ^ xs.length := beNat_lt_pow xs hxs
      have hysv : beNat ys < 256 ^ ys.length := beNat_lt_pow ys hys
      simp only [cmpBytes, beNat]
      rcases Nat.lt_trichotomy x y with hlt | heq | hgt
      · have h1 : ¬ y < x := by omega
        simp only [if_pos hlt]
        constructor
        · intro _
          have : x * 256 ^ xs.length + beNat xs < (x + 1) * 256 ^ xs.length := by
            have := hxsv; nlinarith [hxsv]
          have h2 : (x + 1) * 256 ^ xs.length ≤ y * 256 ^ ys.length := by
            rw [← hn]
            exact Nat.mul_le_mul_right _ (by omega)
          omega
        · intro _
          simp
      · subst heq
        have h1 : ¬ x < x := by omega
        simp only [if_neg h1]
        rw [ih ys hn hxs hys, hn]
        omega
      · have h1 : ¬ x < y := by omega
        simp only [if_neg h1, if_pos hgt]
        constructor
        · intro hcon
          exact absurd rfl hcon
        · intro hle
          exfalso
          have h2 : y * 256 ^ ys.length + beNat ys < (y + 1) * 256 ^ ys.length := by
            nlinarith [hysv]
          have h3 : (y + 1) * 256 ^ ys.length ≤ x * 256 ^ xs.length := by
            rw [hn]
            exact Nat.mul_le_mul_right _ (by omega)
          omega

/-- C5: for every difficulty byte `d < 32`, `difficulty_target` returns the
32-byte value whose byte at index `d` is `0xFF` and all other bytes are 0;
for every `d ≥ 32` it returns an error; and `target_met` holds iff the hash
is ≤ the target under big-endian (lexicographic) byte comparison —
equivalently, for byte strings of equal length, iff the big-endian value of
the hash is ≤ that of the target. -/
theorem c5_difficulty_target_spec :
    (∀ d : Nat, d < 32 →
      BlockHeader.difficultyTarget d =
        some (List.replicate d 0 ++ 255 :: List.replicate (31 - d) 0)) ∧
    (∀ d : Nat, 32 ≤ d → BlockHeader.difficultyTarget d = none) ∧
    (∀ hash target : List Nat, hash.length = target.length →
      (∀ x ∈ hash, x < 256) → (∀ x ∈ target, x < 256) →
      (BlockHeader.targetMet hash target = true ↔ beNat hash ≤ beNat target)) := by
  refine ⟨difficultyTarget_lt, difficultyTarget_ge, ?_⟩
  intro hash target hlen hh ht
  rw [targetMet_iff]
  exact cmpBytes_iff_beNat hash target hlen hh ht

/-- Witness for C5 at concrete inputs: difficulty 2, difficulty 33, and a
concrete hash/target comparison. -/
theorem c5_difficulty_target_spec_witness :
    BlockHeader.difficultyTarget 2 =
      some (List.replicate 2 0 ++ 255 :: List.replicate 29 0) ∧
    BlockHeader.difficultyTarget 33 = none ∧
    (BlockHeader.targetMet [1, 7] [2, 0] = true ↔ beNat [1, 7] ≤ beNat [2, 0]) :=
  ⟨c5_difficulty_target_spec.1 2 (by decide),
   c5_difficulty_target_spec.2.1 33 (by decide),
   c5_difficulty_target_spec.2.2 [1, 7] [2, 0] (by decide) (by decide) (by decide)⟩

theorem withPrevious_header (n : BlockchainNode) (p : Option BlockchainNode) :
    (n.withPrevious p).header = n.header := by
  cases n <;> cases p <;> rfl

theorem withPrevious_height (n : BlockchainNode) (p : Option BlockchainNode) :
    (n.withPrevious p).height = n.height := by
  cases n <;> cases p <;> rfl

theorem withPrevious_previous (n : BlockchainNode) (p : Option BlockchainNode) :
    (n.withPrevious p).previous = p := by
  cases n <;> cases p <;> rfl

theorem withWork_header (n : BlockchainNode) (w : Nat) :
    (n.withWork w).header = n.header := by
  cases n <;> rfl

theorem withWork_height (n : BlockchainNode) (w : Nat) :
    (n.withWork w).height = n.height := by
  cases n <;> rfl

theorem withWork_previous (n : BlockchainNode) (w : Nat) :
    (n.withWork w).previous = n.previous := by
  cases n <;> rfl

theorem withWork_work (n : BlockchainNode) (w : Nat) :
    (n.withWork w).work = w := by
  cases n <;> rfl

theorem setPrevious_eq (n : BlockchainNode) (prev : Option BlockchainNode)
    (tb : List Nat)
    (htb : BlockHeader.difficultyTarget n.header.difficulty = some tb) :
    n.setPrevious prev = some ((n.withPrevious prev).withWork
      ((prev.map BlockchainNode.work).getD 0 +
        ((2 ^ 256 - 1 - beNat tb) / (beNat tb + 1) + 1))) := by
  unfold BlockchainNode.setPrevious BlockchainNode.calculateWork
  simp only [withPrevious_header, withPrevious_previous, htb, Option.map_some']

/-- C7: after `set_previous`, a chain node's cumulative work equals its
predecessor's work (zero when there is none) plus the per-block work
`(2^256 − 1 − target) / (target + 1) + 1`, where `target` is the node's
difficulty target read as a big-endian integer — concretely
`255 · 256^(31−d)` — in exact natural-number (big-integer) arithmetic. -/
theorem c7_work_formula (n : BlockchainNode) (prev : Option BlockchainNode)
    (hd : n.header.difficulty < 32) :
    ∃ targetBytes n2,
      BlockHeader.difficultyTarget n.header.difficulty = some targetBytes ∧
      n.setPrevious prev = some n2 ∧
      n2.height = n.height ∧ n2.header = n.header ∧ n2.previous = prev ∧
      n2.work = (prev.map BlockchainNode.work).getD 0 +
        ((2 ^ 256 - 1 - beNat targetBytes) / (beNat targetBytes + 1) + 1) ∧
      beNat targetBytes = 255 * 256 ^ (31 - n.header.difficulty) := by
  have htb := difficultyTarget_lt n.header.difficulty hd
  refine ⟨_, _, htb, setPrevious_eq n prev _ htb, ?_, ?_, ?_, ?_, ?_⟩
  · rw [withWork_height, withPrevious_height]
  · rw [withWork_header, withPrevious_header]
  · rw [withWork_previous, withPrevious_previous]
  · rw [withWork_work]
  · exact beNat_difficultyTarget n.header.difficulty

/-- Witness for C7: a genesis-style node of difficulty 0 with no
predecessor gets cumulative work 1. -/
theorem c7_work_formula_witness :
    ∃ targetBytes n2,
      BlockHeader.difficultyTarget
        (BlockchainNode.root 1 ⟨List.replicate 32 0, List.replicate 32 0, 0, 0, 0⟩ 0).header.difficulty =
        some targetBytes ∧
      (BlockchainNode.root 1 ⟨List.replicate 32 0, List.replicate 32 0, 0, 0, 0⟩ 0).setPrevious none =
        some n2 ∧
      n2.height = 1 ∧
      n2.header = ⟨List.replicate 32 0, List.replicate 32 0, 0, 0, 0⟩ ∧
      n2.previous = none ∧
      n2.work = (Option.map BlockchainNode.work none).getD 0 +
        ((2 ^ 256 - 1 - beNat targetBytes) / (beNat targetBytes + 1) + 1) ∧
      beNat targetBytes = 255 * 256 ^ 31 := by
  have h := c7_work_formula
    (BlockchainNode.root 1 ⟨List.replicate 32 0, List.replicate 32 0, 0, 0, 0⟩ 0) none
    (by decide)
  obtain ⟨tb, n2, h1, h2, h3, h4, h5, h6, h7⟩ := h
  exact ⟨tb, n2, h1, h2, h3, h4, h5, h6, h7⟩

theorem asBytes_set_nonce (h : BlockHeader) (hp : h.previous_block_hash.length = 32)
    (hm : h.merkle_root.length = 32) (n : Nat) :
    h.asBytes.take 69 ++ leBytes 8 n = BlockHeader.asBytes { h with nonce := n } := by
  unfold BlockHeader.asBytes
  have hlen : (h.previous_block_hash ++ h.merkle_root ++ leBytes 4 h.timestamp ++
      [h.difficulty]).length = 69 := by
    simp [hp, hm, leBytes_length]
  rw [List.take_left' hlen]

theorem nonceLoop_finds (C : Crypto) (bytes target : List Nat) (N : Nat)
    (hmet : BlockHeader.targetMet (C.sha (bytes.take 69 ++ leBytes 8 N)) target = true)
    (hleast : ∀ m, m < N →
      BlockHeader.targetMet (C.sha (bytes.take 69 ++ leBytes 8 m)) target = false) :
    ∀ fuel k, k ≤ N → N < k + fuel →
      BlockHeader.nonceLoop C bytes target fuel k = some N := by
  intro fuel
  induction fuel with
  | zero => intro k hk hlt; omega
  | succ fuel ih =>
    intro k hk hlt
    by_cases hkN : k = N
    · subst hkN
      simp [BlockHeader.nonceLoop, hmet]
    · have hklt : k < N := by omega
      have hf := hleast k hklt
      simp only [BlockHeader.nonceLoop, hf, Bool.false_eq_true, if_false]
      exact ih (k + 1) (by omega) (by omega)

/-- C6: whenever some nonce makes the double hash of the header bytes (with
bytes 69..77 replaced by its little-endian encoding) meet the target, the
nonce search returns the least such nonce `N` (for any sufficient fuel);
replacing bytes 69..77 of the serialized header agrees exactly with
re-serializing the header with that nonce stored in its field, so after
`mine` stores `N` the header's `validate_hash` returns true. -/
theorem c6_compute_nonce_least (C : Crypto) (h : BlockHeader) (target : List Nat)
    (N : Nat)
    (hp : h.previous_block_hash.length = 32) (hm : h.merkle_root.length = 32)
    (ht : BlockHeader.difficultyTarget h.difficulty = some target)
    (hmet : BlockHeader.targetMet (C.sha (h.asBytes.take 69 ++ leBytes 8 N)) target = true)
    (hleast : ∀ m, m < N →
      BlockHeader.targetMet (C.sha (h.asBytes.take 69 ++ leBytes 8 m)) target = false) :
    (∀ n : Nat, h.asBytes.take 69 ++ leBytes 8 n =
      BlockHeader.asBytes { h with nonce := n }) ∧
    (∀ fuel, N < fuel → BlockHeader.computeNonce C h fuel = some N) ∧
    (∀ fuel, N < fuel → BlockHeader.mine C h fuel = some { h with nonce := N }) ∧
    BlockHeader.validateHash C { h with nonce := N } = some true := by
  have hsub := asBytes_set_nonce h hp hm
  have hcn : ∀ fuel, N < fuel → BlockHeader.computeNonce C h fuel = some N := by
    intro fuel hfuel
    unfold BlockHeader.computeNonce
    rw [ht]
    exact nonceLoop_finds C h.asBytes target N hmet hleast fuel 0 (by omega) (by omega)
  refine ⟨hsub, hcn, ?_, ?_⟩
  · intro fuel hfuel
    unfold BlockHeader.mine
    rw [hcn fuel hfuel]
    rfl
  · unfold BlockHeader.validateHash BlockHeader.hash
    have hdiff : ({ h with nonce := N } : BlockHeader).difficulty = h.difficulty := rfl
    rw [hdiff, ht]
    rw [← hsub N]
    simp [hmet]

/-- A concrete crypto instance whose hash function is constantly the zero
hash (used to exercise the mining theorems on explicit inputs). -/
def cryptoZeroSha : Crypto :=
  { sha := fun _ => List.replicate 32 0
    ecdsaSign := fun _ _ => 0
    ecdsaVerify := fun _ _ _ => true
    addressOfPublicKey := fun _ => []
    merkleRoot := fun _ => some (List.replicate 32 0) }

/-- A concrete all-zero header of difficulty 0. -/
def c6Header : BlockHeader :=
  { previous_block_hash := List.replicate 32 0
    merkle_root := List.replicate 32 0
    timestamp := 0
    difficulty := 0
    nonce := 0 }

/-- Witness for C6: with the constant zero hash and difficulty 0 the search
finds nonce 0 with fuel 1, and the mined header validates. -/
theorem c6_compute_nonce_least_witness :
    BlockHeader.computeNonce cryptoZeroSha c6Header 1 = some 0 ∧
    BlockHeader.mine cryptoZeroSha c6Header 1 = some { c6Header with nonce := 0 } ∧
    BlockHeader.validateHash cryptoZeroSha { c6Header with nonce := 0 } = some true := by
  have h := c6_compute_nonce_least cryptoZeroSha c6Header (255 :: List.replicate 31 0) 0
    (by decide) (by decide) (by decide) (by decide)
    (fun m hm => absurd hm (Nat.not_lt_zero m))
  exact ⟨h.2.1 1 (by decide), h.2.2.1 1 (by decide), h.2.2.2⟩

/-- A concrete crypto instance whose ECDSA verification always fails (as for
a signature produced under a different key). -/
def cryptoNoVerify : Crypto :=
  { sha := fun _ => List.replicate 32 0
    ecdsaSign := fun _ _ => 0
    ecdsaVerify := fun _ _ _ => false
    addressOfPublicKey := fun _ => []
    merkleRoot := fun _ => none }

/-- A coinbase transaction (old module) carrying a keyed signature that does
not verify. -/
def c1BadTx : TxV0.Transaction :=
  { input := { content := .Coinbase 0, keyed_signature := some ⟨0, 0⟩ }
    outputs := [{ value := 5, address := [] }] }

/-- The empty transaction state. -/
def c1State : TxV0.TransactionState :=
  { transactions := [], uxto_set := ⟨[]⟩ }

/-- The same failing coinbase transaction in the `TransactionBody` model. -/
def c1BadTxBody : Transaction :=
  { body := { input := .Coinbase 0, outputs := [{ value := 5, address := [] }] }
    signing_info := ⟨0, 0⟩ }

/-- C1 (code bug): a transaction whose attached signature fails ECDSA
verification (`verify` returns `Ok(false)`) is nevertheless accepted by
`TransactionState::validate_transaction`, and likewise by
`UTXOSet::validate_transaction`, because both run `transaction.verify()?;` /
`transaction.verify_signature()?;`, which propagates only the error case and
discards the verification boolean. The claim (and the spec's
"succeeds iff `verify_signature(tx)` holds") requires rejection here. -/
theorem c1_validate_accepts_failed_verification :
    TxV0.Transaction.verify cryptoNoVerify c1BadTx = .ok false ∧
    TxV0.TransactionState.validateTransaction cryptoNoVerify c1State c1BadTx = .ok () ∧
    Transaction.verifySignature cryptoNoVerify c1BadTxBody = .ok false ∧
    UTXOSet.validateTransaction cryptoNoVerify ⟨[]⟩ c1BadTxBody = .ok true :=
  ⟨rfl, rfl, rfl, rfl⟩

/-- C8: signing attaches a keyed signature but leaves the canonical bytes —
and hence the transaction id — unchanged, because the encoding of a
`TransactionInput` covers only its `content` and excludes the signature and
public key. -/
theorem c8_sign_preserves_txid (C : Crypto) (kp : KeyPair) (tx : TxV0.Transaction) :
    TxV0.Transaction.id C (TxV0.Transaction.sign C kp tx).1 =
      TxV0.Transaction.id C tx ∧
    TxV0.Transaction.asBytes (TxV0.Transaction.sign C kp tx).1 =
      TxV0.Transaction.asBytes tx ∧
    (TxV0.Transaction.sign C kp tx).1.input.keyed_signature =
      some ⟨kp.public_key, C.ecdsaSign kp.secret_key tx.asBytes⟩ :=
  ⟨rfl, rfl, rfl⟩

namespace TxV0

/-- The fixed-width little-endian transaction-body layout that the claim
describes (u32 LE variant tag, u64 LE sequence lengths, fixed-width LE
integers, the output reference index as u64 LE), stated from the spec's words
for comparison against the source encoding. -/
def specFixedEncInput : TransactionInputType → List Nat
  | .Coinbase h => leBytes 4 0 ++ leBytes 4 h
  | .Reference r => leBytes 4 1 ++ (r.id ++ leBytes 8 r.index)

/-- Fixed-width layout of one output, from the spec's words. -/
def specFixedEncOutput (o : TransactionOutput) : List Nat :=
  leBytes 8 o.value ++ leBytes 8 o.address.length ++ o.address

/-- Fixed-width layout of a whole transaction, from the spec's words. -/
def Transaction.specFixedBytes (tx : Transaction) : List Nat :=
  specFixedEncInput tx.input.content ++ leBytes 8 tx.outputs.length ++
    (tx.outputs.map specFixedEncOutput).flatten

/-- The varint layout that `bincode::config::standard()` actually produces:
a one-byte tag (the u32 discriminant as a varint), the `usize` index and all
integers as varints, and sequence lengths as u64 varints. -/
def Transaction.specVarintBytes (tx : Transaction) : List Nat :=
  (match tx.input.content with
   | .Coinbase h => 0 :: varint h
   | .Reference r => 1 :: (r.id ++ varint r.index)) ++
  varint tx.outputs.length ++
  tx.outputs.flatMap fun o => varint o.value ++ varint o.address.length ++ o.address

end TxV0

/-- A concrete minimal transaction: coinbase of height 0 with no outputs. -/
def c4Tx : TxV0.Transaction :=
  { input := { content := .Coinbase 0, keyed_signature := none }, outputs := [] }

/-- C4 counterexample: the txid preimage produced by `Transaction::as_bytes`
is not the fixed-width encoding the claim describes —
`bincode::config::standard()` uses variable-width integers, so the minimal
coinbase transaction encodes to the three bytes `[0, 0, 0]` rather than the
sixteen bytes of a u32 LE tag, u32 LE height and u64 LE length prefix. -/
theorem c4_encoding_not_fixed_width :
    TxV0.Transaction.asBytes c4Tx ≠ TxV0.Transaction.specFixedBytes c4Tx ∧
    TxV0.Transaction.asBytes c4Tx = [0, 0, 0] ∧
    TxV0.Transaction.specFixedBytes c4Tx = List.replicate 16 0 := by
  refine ⟨by decide, rfl, by decide⟩

/-- C4 (amended): the canonical byte encoding of a transaction is the
bincode standard varint layout — a single-byte variant tag (0 = coinbase,
1 = reference, the u32 discriminant in varint form), sequences as a u64
varint length prefix followed by the elements, and the output reference as
the raw 32-byte txid followed by its index as a u64 varint. -/
theorem c4_encoding_is_varint (tx : TxV0.Transaction) :
    TxV0.Transaction.asBytes tx = TxV0.Transaction.specVarintBytes tx := by
  have h0 : varint 0 = [0] := rfl
  have h1 : varint 1 = [1] := rfl
  have hfun : TxV0.encOutput = fun o : TxV0.TransactionOutput =>
      varint o.value ++ (varint o.address.length ++ o.address) := by
    funext o
    simp [TxV0.encOutput]
  cases tx with
  | mk input outputs =>
    cases input with
    | mk content ks =>
      cases content <;>
        simp [TxV0.Transaction.asBytes, TxV0.Transaction.specVarintBytes,
          TxV0.encInputType, TxV0.encReference, hfun, h0, h1,
          List.flatMap]

/-- C10: when the mempool already holds at least `size` pending
transactions, `add` rejects with the capacity error before any validation
(for every transaction, however invalid) and leaves the pool unchanged (the
UTXO set is only borrowed immutably and projected against a clone);
otherwise the result is either an unchanged pool with an error, or — exactly
when the projection succeeds and the transaction validates against it — the
pool with the transaction appended. -/
theorem c10_mempool_capacity (C : Crypto) (mp : MemPool) (utxo : UTXOSet)
    (tx : Transaction) :
    (mp.pending_transactions.length ≥ mp.size →
      MemPool.add C mp utxo tx = (.error "MemPool is full", mp)) ∧
    (∀ r mp2, MemPool.add C mp utxo tx = (r, mp2) →
      mp2 = mp ∨
      (mp.pending_transactions.length < mp.size ∧
        ∃ projected,
          MemPool.projectPending C utxo mp.pending_transactions = .ok projected ∧
          (∃ bres, projected.validateTransaction C tx = .ok bres) ∧
          r = .ok () ∧
          mp2 = { mp with
            pending_transactions := mp.pending_transactions ++ [tx] })) := by
  constructor
  · intro hfull
    simp [MemPool.add, MemPool.isFull, hfull]
  · intro r mp2 hadd
    by_cases hfull : mp.pending_transactions.length ≥ mp.size
    · have heq : MemPool.add C mp utxo tx = (.error "MemPool is full", mp) := by
        simp [MemPool.add, MemPool.isFull, hfull]
      rw [heq] at hadd
      injection hadd with h1 h2
      exact Or.inl h2.symm
    · have hlt : mp.pending_transactions.length < mp.size := by omega
      have hnotfull : mp.isFull = false := by
        simp only [MemPool.isFull, ge_iff_le, decide_eq_false_iff_not]
        omega
      rw [MemPool.add, hnotfull] at hadd
      simp only [Bool.false_eq_true, if_false] at hadd
      split at hadd
      · injection hadd with h1 h2
        exact Or.inl h2.symm
      · rename_i projected hproj
        split at hadd
        · injection hadd with h1 h2
          exact Or.inl h2.symm
        · rename_i bres hval
          injection hadd with h1 h2
          exact Or.inr ⟨hlt, projected, hproj, ⟨bres, hval⟩, h1.symm, h2.symm⟩

/-- Witness for C10: a zero-capacity pool rejects any transaction with the
capacity error and is left unchanged. -/
theorem c10_mempool_capacity_witness :
    MemPool.add cryptoZeroSha ⟨0, []⟩ ⟨[]⟩ c1BadTxBody =
      (.error "MemPool is full", ⟨0, []⟩) :=
  (c10_mempool_capacity cryptoZeroSha ⟨0, []⟩ ⟨[]⟩ c1BadTxBody).1 (by decide)

theorem addBlock_of_contains (C : Crypto) (g hl : Nat) (s : NodeState) (b : Block)
    (h : s.block_manager.containsBlock (b.header.hash C) = true) :
    NodeState.addBlock C g hl s b = (.ok (), s) := by
  rw [NodeState.addBlock]
  simp [h]

theorem mgrAdd_orphaned (C : Crypto) (m : BlockManager) (b : Block)
    (m2 : BlockManager) (h : m.addBlock C b = .ok (.Orphaned, m2)) :
    m2 = { m with orphan_blocks := insertA m.orphan_blocks (b.header.hash C) b } ∧
    lookupA m.nodes b.header.previous_block_hash = none ∧ b.height > 1 := by
  simp only [BlockManager.addBlock] at h
  split at h
  · rename_i hcond
    injection h with h1
    injection h1 with ha hb
    refine ⟨hb.symm, ?_, hcond.2⟩
    have := hcond.1
    cases hl2 : lookupA m.nodes b.header.previous_block_hash with
    | none => rfl
    | some x => rw [hl2] at this; simp [Option.isNone] at this
  · split at h
    · simp at h
    · simp at h

theorem mgrAdd_orphaned_again (C : Crypto) (m : BlockManager) (b : Block)
    (m2 : BlockManager) (h : m.addBlock C b = .ok (.Orphaned, m2)) :
    m2.addBlock C b = .ok (.Orphaned, m2) := by
  obtain ⟨hm2, hprev, hht⟩ := mgrAdd_orphaned C m b m2 h
  subst hm2
  rw [BlockManager.addBlock]
  simp [hprev, hht, insertA_idem]

theorem mgrAdd_added_blocks (C : Crypto) (m : BlockManager) (b : Block)
    (node : BlockchainNode) (m2 : BlockManager)
    (h : m.addBlock C b = .ok (.Added node, m2)) :
    m2.blocks = insertA m.blocks (b.header.hash C) b := by
  simp only [BlockManager.addBlock] at h
  split at h
  · simp at h
  · split at h
    · simp at h
    · rename_i node2 hsp
      injection h with h1
      injection h1 with ha hb
      rw [← hb]

/-- C9: ingesting the same block twice is equivalent to ingesting it once —
the node state after the second `add_block` call with the same block equals
the state after the first call, in every case (known block, validation
failure, orphaned block, connected block, and failed or successful UTXO
rebuild). -/
theorem c9_add_block_idempotent (C : Crypto) (g hl : Nat) (s : NodeState)
    (b : Block) :
    (NodeState.addBlock C g hl ((NodeState.addBlock C g hl s b).2) b).2 =
      (NodeState.addBlock C g hl s b).2 := by
  by_cases h1 : s.block_manager.containsBlock (b.header.hash C) = true
  · rw [addBlock_of_contains C g hl s b h1]
    show (NodeState.addBlock C g hl s b).2 = s
    rw [addBlock_of_contains C g hl s b h1]
  · have h1f : s.block_manager.containsBlock (b.header.hash C) = false := by
      simpa using h1
    cases hv : Block.validate C g hl b with
    | error e =>
      have hfirst : NodeState.addBlock C g hl s b = (.error e, s) := by
        rw [NodeState.addBlock]
        simp [h1f, hv]
      rw [hfirst]
      show (NodeState.addBlock C g hl s b).2 = s
      rw [hfirst]
    | ok u =>
      cases hm : s.block_manager.addBlock C b with
      | error e =>
        have hfirst : NodeState.addBlock C g hl s b = (.error e, s) := by
          rw [NodeState.addBlock]
          simp [h1f, hv, hm]
        rw [hfirst]
        show (NodeState.addBlock C g hl s b).2 = s
        rw [hfirst]
      | ok pr =>
        obtain ⟨res, m2⟩ := pr
        cases res with
        | Orphaned =>
          have hfirst : NodeState.addBlock C g hl s b =
              (.ok (), { s with block_manager := m2 }) := by
            rw [NodeState.addBlock]
            simp [h1f, hv, hm]
          obtain ⟨hm2, hprev, hht⟩ := mgrAdd_orphaned C s.block_manager b m2 hm
          have hc2 : ({ s with block_manager := m2 } : NodeState).block_manager.containsBlock
              (b.header.hash C) = false := by
            subst hm2
            simpa [BlockManager.containsBlock] using h1f
          have hagain := mgrAdd_orphaned_again C s.block_manager b m2 hm
          rw [hfirst]
          show (NodeState.addBlock C g hl { s with block_manager := m2 } b).2 =
            { s with block_manager := m2 }
          rw [NodeState.addBlock]
          simp [hc2, hv, hagain]
        | Added node =>
          have hblocks := mgrAdd_added_blocks C s.block_manager b node m2 hm
          have hsnd : ((NodeState.addBlock C g hl s b).2).block_manager = m2 := by
            rw [NodeState.addBlock]
            simp only [h1f, Bool.false_eq_true, if_false, hv, hm]
            split
            · rfl
            · rfl
          have hcont2 : ((NodeState.addBlock C g hl s b).2).block_manager.containsBlock
              (b.header.hash C) = true := by
            rw [hsnd, BlockManager.containsBlock, hblocks, lookupA_insertA_self]
            rfl
          rw [addBlock_of_contains C g hl _ b hcont2]

/-- The empty node state (empty block store, chain, UTXO set, and a mempool
of capacity 5). -/
def emptyNode : NodeState :=
  { block_manager := ⟨[], [], []⟩
    chain := ⟨[]⟩
    utxo_set := ⟨[]⟩
    mem_pool := ⟨5, []⟩ }

/-- A coinbase transaction for height 1 paying the full reward of 50. -/
def c2Coinbase : Transaction :=
  { body := { input := .Coinbase 1, outputs := [{ value := 50, address := [] }] }
    signing_info := ⟨0, 0⟩ }

/-- A transaction spending an output reference that does not exist. -/
def c2BadSpend : Transaction :=
  { body := { input := .Reference ⟨List.replicate 32 1, 0⟩
              outputs := [{ value := 1, address := [] }] }
    signing_info := ⟨0, 0⟩ }

/-- A height-1 block that passes isolated validation (under `cryptoZeroSha`)
but whose second transaction is UTXO-invalid, so the rebuild after the tip
change fails. -/
def c2Block : Block :=
  { height := 1
    header := { previous_block_hash := List.replicate 32 0
                merkle_root := List.replicate 32 0
                timestamp := 0
                difficulty := 0
                nonce := 0 }
    transactions := [c2Coinbase, c2BadSpend] }

/-- A block with no transactions at all, rejected by isolated validation. -/
def c2EmptyBlock : Block :=
  { height := 1
    header := { previous_block_hash := List.replicate 32 0
                merkle_root := List.replicate 32 0
                timestamp := 0
                difficulty := 0
                nonce := 0 }
    transactions := [] }

/-- C2 counterexample: ingesting `c2Block` into the empty node fails (the
UTXO rebuild hits a missing output reference), yet the node state is mutated
— the chain tip has moved to height 1 and the block remains in the block
store. The claimed rollback does not happen. -/
theorem c2_failed_ingestion_mutates_state :
    (NodeState.addBlock cryptoZeroSha 50 10 emptyNode c2Block).1 =
      .error "Transaction output reference not found" ∧
    (NodeState.addBlock cryptoZeroSha 50 10 emptyNode c2Block).2 ≠ emptyNode ∧
    (NodeState.addBlock cryptoZeroSha 50 10 emptyNode c2Block).2.chain.height = 1 ∧
    emptyNode.chain.height = 0 ∧
    (NodeState.addBlock cryptoZeroSha 50 10 emptyNode c2Block).2.block_manager.containsBlock
      (c2Block.header.hash cryptoZeroSha) = true := by
  refine ⟨by decide, by decide, by decide, by decide, by decide⟩

/-- C2 (amended): a failure during isolated validation or during
block-manager insertion leaves the node state unchanged (in-place
try-then-commit), but a UTXO failure during the rebuild after a tip change is
not rolled back — the inserted block, the retargeted chain and the partially
rebuilt UTXO set all persist (only the mempool is untouched). -/
theorem c2_rollback_amended (C : Crypto) (g hl : Nat) (s : NodeState) (b : Block) :
    (∀ e, s.block_manager.containsBlock (b.header.hash C) = false →
      Block.validate C g hl b = .error e →
      NodeState.addBlock C g hl s b = (.error e, s)) ∧
    (∀ e, s.block_manager.containsBlock (b.header.hash C) = false →
      Block.validate C g hl b = .ok () →
      s.block_manager.addBlock C b = .error e →
      NodeState.addBlock C g hl s b = (.error e, s)) ∧
    (∀ e node m2 u, s.block_manager.containsBlock (b.header.hash C) = false →
      Block.validate C g hl b = .ok () →
      s.block_manager.addBlock C b = .ok (.Added node, m2) →
      node.work ≥ s.chain.chainWork.getD 0 →
      NodeState.buildLoop C m2 ⟨[]⟩ (s.chain.setTail node).nodes = (.error e, u) →
      NodeState.addBlock C g hl s b =
        (.error e,
         { block_manager := m2
           chain := s.chain.setTail node
           utxo_set := u
           mem_pool := s.mem_pool })) := by
  refine ⟨?_, ?_, ?_⟩
  · intro e hc hv
    rw [NodeState.addBlock]
    simp [hc, hv]
  · intro e hc hv hm
    rw [NodeState.addBlock]
    simp [hc, hv, hm]
  · intro e node m2 u hc hv hm hge hbuild
    rw [NodeState.addBlock]
    simp only [hc, Bool.false_eq_true, if_false, hv, hm]
    rw [if_pos hge]
    simp [NodeState.buildUtxoSet, hbuild]

/-- Witness for the amended C2 at a concrete input: the coinbase-less block
is rejected by isolated validation and the empty node state is unchanged. -/
theorem c2_rollback_amended_witness :
    NodeState.addBlock cryptoZeroSha 50 10 emptyNode c2EmptyBlock =
      (.error "Block has no coinbase transaction", emptyNode) :=
  (c2_rollback_amended cryptoZeroSha 50 10 emptyNode c2EmptyBlock).1
    "Block has no coinbase transaction" (by decide) (by decide)

/-- A concrete crypto instance whose hash extracts bytes 32..64 of its input
(the `merkle_root` field of a serialized header), giving the three test
blocks distinct hashes. -/
def cryptoFieldHash : Crypto :=
  { sha := fun bs => (bs.drop 32).take 32
    ecdsaSign := fun _ _ => 0
    ecdsaVerify := fun _ _ _ => true
    addressOfPublicKey := fun _ => []
    merkleRoot := fun ids => some ((ids.flatten ++ List.replicate 32 0).take 32) }

/-- A coinbase transaction for the given height paying reward 50 to the
one-byte address `[ht]` (making txids distinct under `cryptoFieldHash`). -/
def c3Cb (ht : Nat) : Transaction :=
  { body := { input := .Coinbase ht, outputs := [{ value := 50, address := [ht] }] }
    signing_info := ⟨0, 0⟩ }

/-- A difficulty-0 header for height `ht` on top of `prev`. -/
def c3Header (ht : Nat) (prev : List Nat) : BlockHeader :=
  { previous_block_hash := prev
    merkle_root := ht :: List.replicate 31 0
    timestamp := 0
    difficulty := 0
    nonce := 0 }

/-- Block B1 at height 1 (no known parent; connectable). -/
def c3B1 : Block :=
  { height := 1, header := c3Header 1 (List.replicate 32 0), transactions := [c3Cb 1] }

/-- Block B2 at height 2 on top of B1. -/
def c3B2 : Block :=
  { height := 2, header := c3Header 2 (1 :: List.replicate 31 0), transactions := [c3Cb 2] }

/-- Block B3 at height 3 on top of B2. -/
def c3B3 : Block :=
  { height := 3, header := c3Header 3 (2 :: List.replicate 31 0), transactions := [c3Cb 3] }

/-- The node state after ingesting B3 into the empty node. -/
def c3S1 : NodeState := (NodeState.addBlock cryptoFieldHash 50 10 emptyNode c3B3).2

/-- The node state after then ingesting B2. -/
def c3S2 : NodeState := (NodeState.addBlock cryptoFieldHash 50 10 c3S1 c3B2).2

/-- The node state after finally ingesting B1. -/
def c3S3 : NodeState := (NodeState.addBlock cryptoFieldHash 50 10 c3S2 c3B1).2

/-- C3 counterexample: ingest B3 and B2 (both orphaned), then their parent
B1 (which connects). No orphan resolution happens: the chain stops at height
1 instead of advancing to B3, and B2, B3 stay in the orphan map without ever
becoming chain nodes. -/
theorem c3_orphans_not_resolved :
    (NodeState.addBlock cryptoFieldHash 50 10 emptyNode c3B3).1 = .ok () ∧
    (NodeState.addBlock cryptoFieldHash 50 10 c3S1 c3B2).1 = .ok () ∧
    (NodeState.addBlock cryptoFieldHash 50 10 c3S2 c3B1).1 = .ok () ∧
    c3S3.chain.height = 1 ∧
    lookupA c3S3.block_manager.nodes (c3B2.header.hash cryptoFieldHash) = none ∧
    lookupA c3S3.block_manager.nodes (c3B3.header.hash cryptoFieldHash) = none ∧
    lookupA c3S3.block_manager.orphan_blocks (c3B2.header.hash cryptoFieldHash) =
      some c3B2 ∧
    lookupA c3S3.block_manager.orphan_blocks (c3B3.header.hash cryptoFieldHash) =
      some c3B3 := by
  refine ⟨by decide, by decide, by decide, by decide, by decide, by decide,
    by decide, by decide⟩

/-- C3 (amended): connecting a block never re-attempts stored orphans —
`BlockManager::add_block` only ever touches the entry for the new block's own
hash, so every previously orphaned descendant stays in the orphan map and
gains no chain node. -/
theorem c3_orphans_never_reattempted (C : Crypto) (m : BlockManager) (b : Block)
    (res : AddBlockResult) (m2 : BlockManager)
    (hadd : m.addBlock C b = .ok (res, m2)) :
    ∀ h, h ≠ b.header.hash C →
      lookupA m2.orphan_blocks h = lookupA m.orphan_blocks h ∧
      lookupA m2.nodes h = lookupA m.nodes h ∧
      lookupA m2.blocks h = lookupA m.blocks h := by
  intro h hne
  simp only [BlockManager.addBlock] at hadd
  split at hadd
  · injection hadd with h1
    injection h1 with ha hb
    rw [← hb]
    exact ⟨lookupA_insertA_ne _ _ _ _ (Ne.symm hne), rfl, rfl⟩
  · split at hadd
    · simp at hadd
    · rename_i node2 hsp
      injection hadd with h1
      injection h1 with ha hb
      rw [← hb]
      exact ⟨rfl, lookupA_insertA_ne _ _ _ _ (Ne.symm hne),
        lookupA_insertA_ne _ _ _ _ (Ne.symm hne)⟩

/-- The chain node created for B1. -/
def c3Node1 : BlockchainNode := .root 1 c3B1.header 1

/-- The block manager resulting from adding B1 to the empty manager. -/
def c3M2 : BlockManager :=
  { blocks := [(1 :: List.replicate 31 0, c3B1)]
    nodes := [(1 :: List.replicate 31 0, c3Node1)]
    orphan_blocks := [] }

/-- Witness for the amended C3 at a concrete input: adding B1 to the empty
manager leaves every other key's entries unchanged. -/
theorem c3_orphans_never_reattempted_witness :
    lookupA c3M2.orphan_blocks (List.replicate 32 9) =
      lookupA (BlockManager.mk [] [] []).orphan_blocks (List.replicate 32 9) ∧
    lookupA c3M2.nodes (List.replicate 32 9) =
      lookupA (BlockManager.mk [] [] []).nodes (List.replicate 32 9) ∧
    lookupA c3M2.blocks (List.replicate 32 9) =
      lookupA (BlockManager.mk [] [] []).blocks (List.replicate 32 9) :=
  c3_orphans_never_reattempted cryptoFieldHash ⟨[], [], []⟩ c3B1 (.Added c3Node1)
    c3M2 (by decide) (List.replicate 32 9) (by decide)
